import Mathlib

/-!
Shallow embedding of `src/tools/cordova/project.js` (Meteor's Cordova project
management): the version-specifier resolver (`convertToGitUrl`,
`targetForPlugin`), the plugin reconciler (`ensurePluginsAreSynchronized`),
the platform reconciler (`ensurePlatformsAreSynchronized`) and the
command-execution context (`runCommands`), together with theorems checking
the specification's claims about them.
-/

set_option autoImplicit false

namespace Meteor.Cordova

/-! ## Version-specifier resolver -/

/-- The JS regex `.` metacharacter: any character except a line terminator. -/
def reDot (c : Char) : Bool :=
  c ≠ '\n' && c ≠ '\r' && c ≠ '\u2028' && c ≠ '\u2029'

/-- The character class `[0-9a-f]` in the tarball-URL regex. -/
def isShaChar (c : Char) : Bool :=
  ('0' ≤ c && c ≤ '9') || ('a' ≤ c && c ≤ 'f')

/-- `[0-9a-f]{n}`: consume exactly `n` hex characters, returning them and the rest. -/
def takeHex : Nat → List Char → Option (List Char × List Char)
  | 0, rest => some ([], rest)
  | _ + 1, [] => none
  | n + 1, c :: rest =>
    if isShaChar c then
      (takeHex n rest).map (fun p => (c :: p.1, p.2))
    else
      none

/-- Match `\/tarball\/([0-9a-f]{40})` at the front of the input,
returning the captured SHA characters. The regex is unanchored on the
right, so anything may follow the 40 hex characters. -/
def tarballTail (l : List Char) : Option (List Char) :=
  match l with
  | '/' :: 't' :: 'a' :: 'r' :: 'b' :: 'a' :: 'l' :: 'l' :: '/' :: rest =>
    (takeHex 40 rest).map (fun p => p.1)
  | _ => none

/-- The lazy group `(.+?)` for the repository name followed by
`\/tarball\/([0-9a-f]{40})`: take at least one `.`-matching character,
preferring the shortest repository capture (lazy quantifier), exactly as
the backtracking JS engine does. Returns `(repository, sha)`. -/
def matchRepo (acc : List Char) : List Char → Option (List Char × List Char)
  | [] => none
  | c :: rest =>
    if reDot c then
      match tarballTail rest with
      | some sha => some ((c :: acc).reverse, sha)
      | none => matchRepo (c :: acc) rest
    else
      none

/-- The literal `\/` after the organization group, followed by the
repository group and the tarball tail. -/
def orgSlashStep : List Char → Option (List Char × List Char)
  | '/' :: rest2 => matchRepo [] rest2
  | _ => none

/-- The lazy group `(.+?)` for the organization name followed by
`orgSlashStep` (the literal `\/` and the rest of the pattern): shortest
organization capture first, extending on failure of the remainder (JS
backtracking). Returns `(organization, repository, sha)`. -/
def matchOrg (acc : List Char) : List Char → Option (List Char × List Char × List Char)
  | [] => none
  | c :: rest =>
    if reDot c then
      match orgSlashStep rest with
      | some p => some ((c :: acc).reverse, p.1, p.2)
      | none => matchOrg (c :: acc) rest
    else
      none

/-- Match `:\/\/github.com\/` (the `.` before `com` is the regex wildcard)
and then the organization/repository/tarball groups. -/
def matchSchemeRest (l : List Char) : Option (List Char × List Char × List Char) :=
  match l with
  | ':' :: '/' :: '/' :: 'g' :: 'i' :: 't' :: 'h' :: 'u' :: 'b' :: d ::
      'c' :: 'o' :: 'm' :: '/' :: rest =>
    if reDot d then matchOrg [] rest else none
  | _ => none

/-- The anchored regex
`^https?:\/\/github.com\/(.+?)\/(.+?)\/tarball\/([0-9a-f]{40})` from
`convertToGitUrl`, with JS backtracking semantics (`s?` greedy, groups lazy).
Returns the three captures on success. -/
def matchTarballUrl (l : List Char) : Option (List Char × List Char × List Char) :=
  match l with
  | 'h' :: 't' :: 't' :: 'p' :: rest =>
    (match rest with
     | 's' :: rest2 => (matchSchemeRest rest2).orElse (fun _ => matchSchemeRest rest)
     | _ => matchSchemeRest rest)
  | _ => none

/-- The tarball segment of the URL, as a character list. -/
def tarballSegment (sha : List Char) : List Char :=
  '/' :: 't' :: 'a' :: 'r' :: 'b' :: 'a' :: 'l' :: 'l' :: '/' :: sha

/-- The unanchored test `/\.git/.test(url)`: does `.git` occur as a
substring anywhere? -/
def hasDotGit : List Char → Bool
  | [] => false
  | c :: rest => ['.', 'g', 'i', 't'].isPrefixOf (c :: rest) || hasDotGit rest

/-- The error message thrown by `convertToGitUrl` for unsupported URLs. -/
def tarballErrorMessage : String :=
  "Meteor no longer supports installing Cordova plugins from tarball URLs. " ++
    "Cordova requires a Git URL to install from."

/-- `convertToGitUrl(url)` (project.js lines 251-266): rewrite a GitHub
tarball URL to `https://github.com/org/repo.git#sha`; pass any URL
containing `.git` through unchanged; otherwise throw. -/
def convertToGitUrl (url : String) : Except String String :=
  match matchTarballUrl url.data with
  | some caps =>
    .ok ("https://github.com/" ++ String.mk caps.1 ++ "/" ++ String.mk caps.2.1 ++
      ".git#" ++ String.mk caps.2.2)
  | none =>
    if hasDotGit url.data then .ok url
    else .error tarballErrorMessage

/-- Modelled from the spec: `utils.isUrlWithFileScheme` lives in
`tools/utils/utils.js`, which is not part of the sources here. Per the
spec a local-path specifier is "a `file://`-prefixed path". -/
def isUrlWithFileScheme (s : String) : Bool :=
  "file://".data.isPrefixOf s.data

/-- Does some position of the input start a run of 40 hex characters? -/
def hasFortyHex : List Char → Bool
  | [] => false
  | c :: rest => (takeHex 40 (c :: rest)).isSome || hasFortyHex rest

/-- Modelled from the spec: `utils.isUrlWithSha` lives in
`tools/utils/utils.js`, which is not part of the sources here. Per the
spec it detects "a URL carrying a 40-hex-character commit SHA (detected
via pattern matching)": an `http`/`https` URL containing a run of 40 hex
characters. -/
def isUrlWithSha (s : String) : Bool :=
  ("http://".data.isPrefixOf s.data || "https://".data.isPrefixOf s.data) &&
    hasFortyHex s.data

/-- `targetForPlugin(name, version)` (project.js lines 268-281). The
resolution of a local (`file://`) path involves filesystem-root arithmetic
(`resolveCordovaLocalPluginPath` plus OS-path conversion), taken here as
the parameter `resolveLocal`. -/
def targetForPlugin (resolveLocal : String → String) (name version : String) :
    Except String String :=
  if version = "" then .ok name
  else if isUrlWithSha version then convertToGitUrl version
  else if isUrlWithFileScheme version then .ok (resolveLocal version)
  else .ok (name ++ "@" ++ version)

/-- `addPlugin(name, version, config)` (project.js lines 283-293): resolve
the target, then issue a single `cordova plugin add target` command. The
returned list holds the targets of the external toolchain calls issued;
when the target resolution throws, no call is issued. -/
def addPlugin (resolveLocal : String → String) (name version : String) :
    Except String (List String) :=
  match targetForPlugin resolveLocal name version with
  | .error e => .error e
  | .ok target => .ok [target]

/-! ## Plugin reconciler

Desired and installed plugin maps are JS objects (unique keys, insertion
order preserved by iteration); they are embedded as association lists. -/

/-- JS property lookup `m[name]` on an object embedded as an association
list (keys unique). -/
def lookup (m : List (String × String)) (k : String) : Option String :=
  (m.find? (fun p => p.1 = k)).map (fun p => p.2)

/-- Version normalization applied by the reconciler to a non-local desired
version (project.js lines 343-345): SHA-carrying URLs are rewritten to git
form by `convertToGitUrl`; anything else is compared verbatim. -/
def normalizeVersion (v : String) : Except String String :=
  if isUrlWithSha v then convertToGitUrl v else .ok v

/-- The first reconciliation loop (project.js lines 336-353) restricted to
its `shouldReinstallAllPlugins` effect: for every non-local desired entry,
normalize the version (propagating a thrown conversion error) and flag a
reinstall when the plugin is missing from `installed` or its installed
version differs from the normalized one. -/
def reinstallFlag (installed : List (String × String)) :
    List (String × String) → Except String Bool
  | [] => .ok false
  | p :: rest =>
    if isUrlWithFileScheme p.2 then
      reinstallFlag installed rest
    else
      match normalizeVersion p.2 with
      | .error e => .error e
      | .ok w =>
        match reinstallFlag installed rest with
        | .error e => .error e
        | .ok b => .ok (b || decide (lookup installed p.1 ≠ some w))

/-- The second reconciliation loop (project.js lines 361-365): flag a
reinstall when some installed plugin is absent from the desired map. -/
def staleFlag (plugins installed : List (String × String)) : Bool :=
  installed.any (fun q => (lookup plugins q.1).isNone)

/-- The `pluginsFromLocalPath` partition (project.js lines 335-341): the
desired entries whose specifier carries the `file://` scheme, in map
iteration order. -/
def pluginsFromLocalPath (plugins : List (String × String)) :
    List (String × String) :=
  plugins.filter (fun p => isUrlWithFileScheme p.2)

/-- The spec's ReconciliationDecision: the reinstall flag together with the
`pluginsToRemove` / `pluginsToInstall` values of project.js lines 367-387
(both empty when neither branch would run). -/
structure Decision where
  reinstallAll : Bool
  toRemove : List String
  toInstall : List (String × String)
deriving DecidableEq, Repr

/-- The decision computed by `ensurePluginsAreSynchronized` (project.js
lines 320-387) from the desired map and the installed map: `toRemove` is
the full installed name set on reinstall-all, else the local-path names
that are currently installed (`_.intersection` keeps the first list's
order); `toInstall` is the full desired map on reinstall-all, else the
local-path entries. -/
def syncDecision (plugins installed : List (String × String)) :
    Except String Decision :=
  match reinstallFlag installed plugins with
  | .error e => .error e
  | .ok flag =>
    let shouldReinstallAllPlugins := flag || staleFlag plugins installed
    .ok
      { reinstallAll := shouldReinstallAllPlugins,
        toRemove :=
          if shouldReinstallAllPlugins then
            installed.map (fun p => p.1)
          else
            ((pluginsFromLocalPath plugins).map (fun p => p.1)).filter
              (fun n => (lookup installed n).isSome),
        toInstall :=
          if shouldReinstallAllPlugins then plugins
          else pluginsFromLocalPath plugins }

/-- An operation issued against the external toolchain by the plugin
reconciler: one batched `cordova plugin rm` with the full name list
(`removePlugins`, skipped when the list is empty), or one
`cordova plugin add` per desired entry (`addPlugin`). -/
inductive PluginOp where
  | removeBatch (names : List String)
  | add (name version : String)
deriving DecidableEq, Repr

/-- The `reportProgress` calls issued inside the install loop (project.js
lines 393-400): after each add, report `(++pluginsInstalled, pluginsCount)`. -/
def installProgress (total : Nat) : List (String × String) → Nat → List (Nat × Nat)
  | [], _ => []
  | _ :: rest, done => (done + 1, total) :: installProgress total rest (done + 1)

/-- The observable trace of one `ensurePluginsAreSynchronized` run: the
toolchain operations issued, in order, and the progress reports emitted. -/
structure SyncTrace where
  ops : List PluginOp
  progress : List (Nat × Nat)
deriving DecidableEq, Repr

/-- `ensurePluginsAreSynchronized(plugins)` (project.js lines 320-403) as a
function from the desired map and the freshly read installed map to the
trace of operations and progress reports (or the error thrown while
normalizing a version). When neither the reinstall flag nor a non-empty
local-path partition triggers the job, no operation runs. -/
def ensurePluginsAreSynchronized (plugins installed : List (String × String)) :
    Except String SyncTrace :=
  match syncDecision plugins installed with
  | .error e => .error e
  | .ok dec =>
    if dec.reinstallAll || !(pluginsFromLocalPath plugins).isEmpty then
      .ok
        { ops :=
            (if dec.toRemove.isEmpty then [] else [PluginOp.removeBatch dec.toRemove]) ++
              dec.toInstall.map (fun p => PluginOp.add p.1 p.2),
          progress :=
            (0, dec.toInstall.length) ::
              installProgress dec.toInstall.length dec.toInstall 0 }
    else
      .ok { ops := [], progress := [] }

/-- Is a plugin operation an add? -/
def isAddOp : PluginOp → Bool
  | .add _ _ => true
  | .removeBatch _ => false

/-- The number of `cordova plugin add` calls in a trace's operation list. -/
def addOpCount (ops : List PluginOp) : Nat :=
  ops.countP isAddOp

/-- Modelled from the spec: the external toolchain (not part of the sources
here) records in `fetch.json` a source for each added plugin, and
`listInstalledPlugins` reports a registry source as the requested version,
a git source as `url#ref` — the git form `convertToGitUrl` produced — and a
local source as the resolved path (spec section 3, InstalledPluginMap). -/
def recordedVersion (resolveLocal : String → String) (v : String) :
    Except String String :=
  if isUrlWithFileScheme v then .ok (resolveLocal v) else normalizeVersion v

/-- The entries the toolchain records for a list of added plugins, in add
order: each desired entry paired with the version `recordedVersion` models. -/
def recordAdds (resolveLocal : String → String) :
    List (String × String) → Except String (List (String × String))
  | [] => .ok []
  | p :: rest =>
    match recordedVersion resolveLocal p.2 with
    | .error e => .error e
    | .ok w =>
      match recordAdds resolveLocal rest with
      | .error e => .error e
      | .ok adds => .ok ((p.1, w) :: adds)

/-- The installed plugin map as re-read after one reconciliation run whose
only changes were that run's own removes and adds: entries whose name was
removed disappear, and each installed entry is recorded with the version
`recordedVersion` models. -/
def installedAfter (resolveLocal : String → String)
    (plugins installed : List (String × String)) :
    Except String (List (String × String)) :=
  match syncDecision plugins installed with
  | .error e => .error e
  | .ok dec =>
    match recordAdds resolveLocal dec.toInstall with
    | .error e => .error e
    | .ok adds => .ok (installed.filter (fun p => !dec.toRemove.contains p.1) ++ adds)

/-! ## Platform reconciler -/

/-- An operation issued against the external toolchain by the platform
reconciler. -/
inductive PlatformOp where
  | add (platform : String)
  | remove (platform : String)
deriving DecidableEq, Repr

/-- `ensurePlatformsAreSynchronized(platforms)` (project.js lines 212-229):
first add every desired platform that is not installed, then remove every
installed platform that is neither desired nor outside the
`AVAILABLE_PLATFORMS` universe (passed here as `available`, since
`./index.js` is not part of the sources). -/
def ensurePlatformsAreSynchronized (available platforms installedPlatforms : List String) :
    List PlatformOp :=
  (platforms.filter (fun p => !installedPlatforms.contains p)).map PlatformOp.add ++
    (installedPlatforms.filter
      (fun p => !platforms.contains p && available.contains p)).map PlatformOp.remove

/-! ## Command execution context -/

/-- The process-wide mutable state `runCommands` manipulates: the working
directory (`process.cwd()` / `process.chdir`) and the environment installed
by `superspawn.setEnv`. -/
structure ProcState where
  cwd : String
  env : String
deriving DecidableEq, Repr

/-- How the awaited `asyncFunc()` finishes: a value, a thrown
`CordovaError`, or any other thrown error. -/
inductive ActionResult (α : Type) where
  | ok (val : α)
  | cordovaError (msg : String)
  | otherError (msg : String)
deriving DecidableEq, Repr

/-- How `runCommands` itself finishes: the action's value, the thrown
`main.ExitWithCode` carrying its status code, or the rethrown foreign
error. -/
inductive RunOutcome (α : Type) where
  | ok (val : α)
  | exitWithCode (code : Nat)
  | otherError (msg : String)
deriving DecidableEq, Repr

/-- The process state in which the action runs (project.js lines 425-430):
`process.chdir(cwd)` when `cwd` is truthy, then `superspawn.setEnv(env)`. -/
def commandState (env : String) (cwd : Option String) (s : ProcState) : ProcState :=
  let s1 :=
    match cwd with
    | some c => if c = "" then s else { s with cwd := c }
    | none => s
  { s1 with env := env }

/-- `runCommands(asyncFunc, env, cwd)` (project.js lines 423-448), with the
action embedded as a state transformer on the process state: capture
`oldCwd`, switch into `commandState`, run the action, classify its outcome
(`CordovaError` becomes `ExitWithCode 1` after the console messages; any
other error is rethrown), and in the `finally` block restore `oldCwd` when
it is truthy. -/
def runCommands {α : Type} (env : String) (cwd : Option String)
    (asyncFunc : ProcState → ActionResult α × ProcState) (s : ProcState) :
    RunOutcome α × ProcState :=
  let oldCwd := s.cwd
  let run := asyncFunc (commandState env cwd s)
  let restored := if oldCwd = "" then run.2 else { run.2 with cwd := oldCwd }
  (match run.1 with
   | .ok a => .ok a
   | .cordovaError _ => .exitWithCode 1
   | .otherError e => .otherError e,
   restored)

end Meteor.Cordova

namespace Meteor.Cordova

/-! ## Theorems: command execution context -/

/-- C4: after any `runCommands` invocation — whatever the override
environment, working-directory override and action, and however the action
finishes — the process-wide working directory equals its value captured
immediately before the invocation. -/
theorem runCommands_restores_cwd {α : Type} (env : String) (cwd : Option String)
    (asyncFunc : ProcState → ActionResult α × ProcState) (s : ProcState)
    (h : s.cwd ≠ "") :
    ((runCommands env cwd asyncFunc s).2).cwd = s.cwd := by
  simp [runCommands, h]

/-- Witness for C4 at a concrete invocation whose action both moves the
working directory itself and then throws a foreign error. -/
theorem runCommands_restores_cwd_witness :
    ("/home/user" : String) ≠ "" ∧
      ((runCommands "env" (some "/proj/cordova-build")
          (fun _ => ((ActionResult.otherError "EIO" : ActionResult Nat),
            { cwd := "/somewhere/else", env := "x" }))
          { cwd := "/home/user", env := "" }).2).cwd = "/home/user" :=
  ⟨by decide, runCommands_restores_cwd _ _ _ _ (by decide)⟩

/-- C7: when the action fails with the toolchain error kind
(`CordovaError`), `runCommands` raises the controlled termination signal
`ExitWithCode 1` instead of the original error; when it fails with any
other error kind, that error propagates out unchanged. -/
theorem runCommands_classifies_failures {α : Type} (env : String) (cwd : Option String)
    (asyncFunc : ProcState → ActionResult α × ProcState) (s : ProcState) :
    (∀ m, (asyncFunc (commandState env cwd s)).1 = .cordovaError m →
      (runCommands env cwd asyncFunc s).1 = .exitWithCode 1) ∧
    (∀ m, (asyncFunc (commandState env cwd s)).1 = .otherError m →
      (runCommands env cwd asyncFunc s).1 = .otherError m) := by
  constructor <;> intro m h <;> simp [runCommands, h]

/-- Witness for C7: a toolchain failure becomes `ExitWithCode 1`; a foreign
error propagates unchanged. -/
theorem runCommands_classifies_failures_witness :
    (runCommands "env" (some "/proj")
        (fun st => ((ActionResult.cordovaError "boom" : ActionResult Nat), st))
        { cwd := "/h", env := "" }).1 = RunOutcome.exitWithCode 1 ∧
      (runCommands "env" (some "/proj")
          (fun st => ((ActionResult.otherError "oops" : ActionResult Nat), st))
          { cwd := "/h", env := "" }).1 = RunOutcome.otherError "oops" :=
  ⟨(runCommands_classifies_failures _ _ _ _).1 "boom" rfl,
    (runCommands_classifies_failures _ _ _ _).2 "oops" rfl⟩

/-! ## Theorems: version-specifier resolver -/

/-- C10: any specifier that does not match the tarball regex but contains
the substring `.git` anywhere — the test is an unanchored substring match,
not a structural git-URL check — is passed through unchanged. -/
theorem convertToGitUrl_passthrough (url : String)
    (hm : matchTarballUrl url.data = none) (hg : hasDotGit url.data = true) :
    convertToGitUrl url = .ok url := by
  simp [convertToGitUrl, hm, hg]

/-- Witness for C10: a gist URL, where `.git` occurs only inside the
hostname `gist.github.com`, is passed through rather than rejected. -/
theorem convertToGitUrl_passthrough_witness :
    convertToGitUrl "https://gist.github.com/user/1234" =
      .ok "https://gist.github.com/user/1234" :=
  convertToGitUrl_passthrough "https://gist.github.com/user/1234" rfl rfl

/-- C6: a version specifier that is a SHA-carrying URL, does not match the
github.com tarball pattern and does not contain `.git` makes `addPlugin`
throw the tarball configuration error before any toolchain call is issued. -/
theorem addPlugin_rejects_unsupported_url (resolveLocal : String → String)
    (name url : String) (hsha : isUrlWithSha url = true)
    (hm : matchTarballUrl url.data = none) (hg : hasDotGit url.data = false) :
    addPlugin resolveLocal name url = .error tarballErrorMessage := by
  have hne : url ≠ "" := by
    intro he
    rw [he] at hsha
    exact absurd hsha (by decide)
  simp [addPlugin, targetForPlugin, hne, hsha, convertToGitUrl, hm, hg]

/-- Witness for C6 at a non-github URL embedding a 40-hex SHA. -/
theorem addPlugin_rejects_unsupported_url_witness :
    isUrlWithSha
        "http://example.com/archive/92fe99b7248075318f6446b288995d4381d24cd2" = true ∧
      addPlugin id "some-plugin"
          "http://example.com/archive/92fe99b7248075318f6446b288995d4381d24cd2" =
        .error tarballErrorMessage :=
  ⟨by decide,
    addPlugin_rejects_unsupported_url id "some-plugin"
      "http://example.com/archive/92fe99b7248075318f6446b288995d4381d24cd2"
      (by decide) (by decide) (by decide)⟩

theorem takeHex_exact (l : List Char) (h : ∀ c ∈ l, isShaChar c = true) :
    takeHex l.length l = some (l, []) := by
  induction l with
  | nil => rfl
  | cons c t ih =>
    have hc := h c (List.mem_cons_self c t)
    simp [takeHex, hc, ih (fun x hx => h x (List.mem_cons_of_mem c hx))]

theorem tarballTail_ne_slash (c : Char) (l : List Char) (h : c ≠ '/') :
    tarballTail (c :: l) = none := by
  unfold tarballTail
  split
  · rename_i heq
    exact absurd (List.cons.inj heq).1 h
  · rfl

theorem orgSlashStep_ne_slash (c : Char) (l : List Char) (h : c ≠ '/') :
    orgSlashStep (c :: l) = none := by
  unfold orgSlashStep
  split
  · rename_i heq
    exact absurd (List.cons.inj heq).1 h
  · rfl

theorem matchRepo_cons (acc : List Char) (c : Char) (rest : List Char) :
    matchRepo acc (c :: rest) =
      if reDot c then
        match tarballTail rest with
        | some sha => some ((c :: acc).reverse, sha)
        | none => matchRepo (c :: acc) rest
      else none := by
  rfl

theorem matchOrg_cons (acc : List Char) (c : Char) (rest : List Char) :
    matchOrg acc (c :: rest) =
      if reDot c then
        match orgSlashStep rest with
        | some p => some ((c :: acc).reverse, p.1, p.2)
        | none => matchOrg (c :: acc) rest
      else none := by
  rfl

theorem tarballTail_segment (sha : List Char) (hlen : sha.length = 40)
    (hhex : ∀ c ∈ sha, isShaChar c = true) :
    tarballTail (tarballSegment sha) = some sha := by
  have h40 : takeHex 40 sha = some (sha, []) := by
    rw [← hlen]
    exact takeHex_exact sha hhex
  simp [tarballSegment, tarballTail, h40]

theorem matchRepo_complete (sha : List Char) (hlen : sha.length = 40)
    (hhex : ∀ c ∈ sha, isShaChar c = true) (repo : List Char) :
    repo ≠ [] → (∀ c ∈ repo, c ≠ '/' ∧ reDot c = true) →
    ∀ acc, matchRepo acc (repo ++ tarballSegment sha) =
      some (acc.reverse ++ repo, sha) := by
  induction repo with
  | nil => intro h; exact absurd rfl h
  | cons c rest ih =>
    intro _ hc acc
    have hcr := hc c (List.mem_cons_self c rest)
    cases rest with
    | nil =>
      have htb := tarballTail_segment sha hlen hhex
      rw [List.cons_append, List.nil_append, matchRepo_cons, if_pos hcr.2, htb]
      simp
    | cons c2 rest2 =>
      have hc2 := hc c2 (by simp)
      have htb : tarballTail (c2 :: (rest2 ++ tarballSegment sha)) = none :=
        tarballTail_ne_slash _ _ hc2.1
      have hrec := ih (by simp) (fun x hx => hc x (List.mem_cons_of_mem c hx)) (c :: acc)
      rw [List.cons_append, matchRepo_cons, if_pos hcr.2, List.cons_append, htb]
      rw [List.cons_append] at hrec
      simp [hrec, List.append_assoc]

theorem matchOrg_complete (sha : List Char) (hlen : sha.length = 40)
    (hhex : ∀ c ∈ sha, isShaChar c = true) (repo : List Char) (hr1 : repo ≠ [])
    (hr2 : ∀ c ∈ repo, c ≠ '/' ∧ reDot c = true) (org : List Char) :
    org ≠ [] → (∀ c ∈ org, c ≠ '/' ∧ reDot c = true) →
    ∀ acc, matchOrg acc (org ++ '/' :: (repo ++ tarballSegment sha)) =
      some (acc.reverse ++ org, repo, sha) := by
  induction org with
  | nil => intro h; exact absurd rfl h
  | cons c rest ih =>
    intro _ ho acc
    have hco := ho c (List.mem_cons_self c rest)
    cases rest with
    | nil =>
      have hstep : orgSlashStep ('/' :: (repo ++ tarballSegment sha)) =
          some (repo, sha) := by
        have hmr := matchRepo_complete sha hlen hhex repo hr1 hr2 []
        simp only [List.reverse_nil, List.nil_append] at hmr
        simp [orgSlashStep, hmr]
      rw [List.cons_append, List.nil_append, matchOrg_cons, if_pos hco.2, hstep]
      simp
    | cons c2 rest2 =>
      have hc2 := ho c2 (by simp)
      have hstep : orgSlashStep (c2 :: (rest2 ++ '/' :: (repo ++ tarballSegment sha))) =
          none := orgSlashStep_ne_slash _ _ hc2.1
      have hrec := ih (by simp) (fun x hx => ho x (List.mem_cons_of_mem c hx)) (c :: acc)
      rw [List.cons_append, matchOrg_cons, if_pos hco.2, List.cons_append, hstep]
      rw [List.cons_append] at hrec
      simp [hrec, List.append_assoc]

theorem matchTarballUrl_https (rest : List Char) :
    matchTarballUrl ('h' :: 't' :: 't' :: 'p' :: 's' :: rest) =
      (matchSchemeRest rest).orElse (fun _ => matchSchemeRest ('s' :: rest)) := by
  rfl

theorem matchSchemeRest_github (rest : List Char) :
    matchSchemeRest (':' :: '/' :: '/' :: 'g' :: 'i' :: 't' :: 'h' :: 'u' :: 'b' :: '.' ::
      'c' :: 'o' :: 'm' :: '/' :: rest) = matchOrg [] rest := by
  rfl

theorem matchTarballUrl_complete (org repo sha : List Char)
    (ho1 : org ≠ []) (ho2 : ∀ c ∈ org, c ≠ '/' ∧ reDot c = true)
    (hr1 : repo ≠ []) (hr2 : ∀ c ∈ repo, c ≠ '/' ∧ reDot c = true)
    (hlen : sha.length = 40) (hhex : ∀ c ∈ sha, isShaChar c = true) :
    matchTarballUrl
        ('h' :: 't' :: 't' :: 'p' :: 's' :: ':' :: '/' :: '/' ::
          'g' :: 'i' :: 't' :: 'h' :: 'u' :: 'b' :: '.' :: 'c' :: 'o' :: 'm' :: '/' ::
          (org ++ '/' :: (repo ++ tarballSegment sha))) =
      some (org, repo, sha) := by
  have horg := matchOrg_complete sha hlen hhex repo hr1 hr2 org ho1 ho2 []
  simp only [List.reverse_nil, List.nil_append] at horg
  rw [matchTarballUrl_https, matchSchemeRest_github, horg]
  rfl

theorem hasFortyHex_cons (c : Char) (l : List Char) (h : hasFortyHex l = true) :
    hasFortyHex (c :: l) = true := by
  simp [hasFortyHex, h]

theorem hasFortyHex_append (xs ys : List Char) (h : hasFortyHex ys = true) :
    hasFortyHex (xs ++ ys) = true := by
  induction xs with
  | nil => simpa using h
  | cons c t ih => simp [hasFortyHex, ih]

theorem hasFortyHex_of_sha (sha : List Char) (hlen : sha.length = 40)
    (hhex : ∀ c ∈ sha, isShaChar c = true) : hasFortyHex sha = true := by
  cases sha with
  | nil => simp at hlen
  | cons c t =>
    have h40 : takeHex 40 (c :: t) = some (c :: t, []) := by
      rw [← hlen]
      exact takeHex_exact (c :: t) hhex
    simp [hasFortyHex, h40]

/-- C5: resolving a version specifier of the form
`https://github.com/org/repo/tarball/sha` — `org` and `repo` non-empty
path segments (no `/`, no line terminator), `sha` forty `[0-9a-f]`
characters — yields the installation target
`https://github.com/org/repo.git#sha`. -/
theorem targetForPlugin_tarball (resolveLocal : String → String)
    (name org repo sha : String)
    (ho1 : org ≠ "") (ho2 : ∀ c ∈ org.data, c ≠ '/' ∧ reDot c = true)
    (hr1 : repo ≠ "") (hr2 : ∀ c ∈ repo.data, c ≠ '/' ∧ reDot c = true)
    (hlen : sha.data.length = 40) (hhex : ∀ c ∈ sha.data, isShaChar c = true) :
    targetForPlugin resolveLocal name
        ("https://github.com/" ++ org ++ "/" ++ repo ++ "/tarball/" ++ sha) =
      .ok ("https://github.com/" ++ org ++ "/" ++ repo ++ ".git#" ++ sha) := by
  have ho1d : org.data ≠ [] := fun h =>
    ho1 (String.ext (h.trans rfl))
  have hr1d : repo.data ≠ [] := fun h =>
    hr1 (String.ext (h.trans rfl))
  have hdata :
      ("https://github.com/" ++ org ++ "/" ++ repo ++ "/tarball/" ++ sha).data =
        'h' :: 't' :: 't' :: 'p' :: 's' :: ':' :: '/' :: '/' ::
          'g' :: 'i' :: 't' :: 'h' :: 'u' :: 'b' :: '.' :: 'c' :: 'o' :: 'm' :: '/' ::
          (org.data ++ '/' :: (repo.data ++ tarballSegment sha.data)) := by
    have hsplit :
        ("https://github.com/" ++ org ++ "/" ++ repo ++ "/tarball/" ++ sha).data =
          "https://github.com/".data ++ org.data ++ "/".data ++ repo.data ++
            "/tarball/".data ++ sha.data := rfl
    rw [hsplit]
    simp only [List.append_assoc]
    rfl
  have hmatch := matchTarballUrl_complete org.data repo.data sha.data
    ho1d ho2 hr1d hr2 hlen hhex
  have hseg : hasFortyHex (tarballSegment sha.data) = true := by
    show hasFortyHex (['/', 't', 'a', 'r', 'b', 'a', 'l', 'l', '/'] ++ sha.data) = true
    exact hasFortyHex_append _ _ (hasFortyHex_of_sha sha.data hlen hhex)
  have htail : hasFortyHex
      (org.data ++ '/' :: (repo.data ++ tarballSegment sha.data)) = true :=
    hasFortyHex_append _ _ (hasFortyHex_cons '/' _ (hasFortyHex_append _ _ hseg))
  have hforty : hasFortyHex
      ("https://github.com/" ++ org ++ "/" ++ repo ++ "/tarball/" ++ sha).data = true := by
    rw [hdata]
    exact hasFortyHex_append
      ['h', 't', 't', 'p', 's', ':', '/', '/', 'g', 'i', 't', 'h', 'u', 'b', '.',
        'c', 'o', 'm', '/'] _ htail
  have hurlsha : isUrlWithSha
      ("https://github.com/" ++ org ++ "/" ++ repo ++ "/tarball/" ++ sha) = true := by
    unfold isUrlWithSha
    rw [hforty, hdata]
    rfl
  have hne : ("https://github.com/" ++ org ++ "/" ++ repo ++ "/tarball/" ++ sha) ≠ "" := by
    intro h
    rw [h] at hdata
    exact List.noConfusion hdata
  unfold targetForPlugin
  rw [if_neg hne, if_pos hurlsha]
  unfold convertToGitUrl
  rw [hdata, hmatch]

/-- Witness for C5 at the tarball URL from the source comment. -/
theorem targetForPlugin_tarball_witness :
    targetForPlugin id "com.meteor.cordova-update"
        ("https://github.com/" ++ "meteor" ++ "/" ++ "com.meteor.cordova-update" ++
          "/tarball/" ++ "92fe99b7248075318f6446b288995d4381d24cd2") =
      .ok ("https://github.com/" ++ "meteor" ++ "/" ++ "com.meteor.cordova-update" ++
        ".git#" ++ "92fe99b7248075318f6446b288995d4381d24cd2") :=
  targetForPlugin_tarball id "com.meteor.cordova-update" "meteor"
    "com.meteor.cordova-update" "92fe99b7248075318f6446b288995d4381d24cd2"
    (by decide) (by decide) (by decide) (by decide) (by decide) (by decide)

/-! ## Theorems: platform reconciler -/

theorem count_filter_nodup (l : List String) (f : String → Bool) (hl : l.Nodup)
    (p : String) :
    (l.filter f).count p = if p ∈ l ∧ f p = true then 1 else 0 := by
  by_cases h : p ∈ l ∧ f p = true
  · rw [if_pos h]
    exact List.count_eq_one_of_mem (hl.filter f) (List.mem_filter.2 h)
  · rw [if_neg h, List.count_eq_zero]
    intro hmem
    exact h (List.mem_filter.1 hmem)

theorem count_add_map_add (l : List String) (p : String) :
    (l.map PlatformOp.add).count (PlatformOp.add p) = l.count p :=
  List.count_map_of_injective l PlatformOp.add
    (fun _ _ h => PlatformOp.add.inj h) p

theorem count_remove_map_remove (l : List String) (p : String) :
    (l.map PlatformOp.remove).count (PlatformOp.remove p) = l.count p :=
  List.count_map_of_injective l PlatformOp.remove
    (fun _ _ h => PlatformOp.remove.inj h) p

theorem count_add_map_remove (l : List String) (p : String) :
    (l.map PlatformOp.remove).count (PlatformOp.add p) = 0 := by
  rw [List.count_eq_zero]
  intro h
  rcases List.mem_map.1 h with ⟨a, -, ha⟩
  exact PlatformOp.noConfusion ha

theorem count_remove_map_add (l : List String) (p : String) :
    (l.map PlatformOp.add).count (PlatformOp.remove p) = 0 := by
  rw [List.count_eq_zero]
  intro h
  rcases List.mem_map.1 h with ⟨a, -, ha⟩
  exact PlatformOp.noConfusion ha

/-- C8: platform reconciliation issues exactly one add for each desired
platform not installed and exactly one remove for each installed platform
that is neither desired nor outside the known available-platform universe;
platforms outside the universe are never removed, and every add precedes
every remove. -/
theorem ensurePlatforms_diff (available platforms installedPlatforms : List String)
    (h1 : platforms.Nodup) (h2 : installedPlatforms.Nodup) :
    (∃ toAdd toRemove : List String,
      ensurePlatformsAreSynchronized available platforms installedPlatforms =
        toAdd.map PlatformOp.add ++ toRemove.map PlatformOp.remove) ∧
    ∀ p : String,
      (ensurePlatformsAreSynchronized available platforms installedPlatforms).count
          (PlatformOp.add p) =
        (if p ∈ platforms ∧ p ∉ installedPlatforms then 1 else 0) ∧
      (ensurePlatformsAreSynchronized available platforms installedPlatforms).count
          (PlatformOp.remove p) =
        (if p ∈ installedPlatforms ∧ p ∉ platforms ∧ p ∈ available then 1 else 0) := by
  refine ⟨⟨_, _, rfl⟩, fun p => ⟨?_, ?_⟩⟩
  · rw [ensurePlatformsAreSynchronized, List.count_append, count_add_map_add,
      count_add_map_remove, Nat.add_zero, count_filter_nodup _ _ h1]
    congr 1
    simp [List.elem_iff]
  · rw [ensurePlatformsAreSynchronized, List.count_append, count_remove_map_add,
      count_remove_map_remove, Nat.zero_add, count_filter_nodup _ _ h2]
    congr 1
    simp [List.elem_iff, and_assoc]

/-- Witness for C8: desired `{ios, android}`, installed `{android, web}`,
`web` in the universe: exactly one add (`ios`), one remove (`web`), the add
first, and the untouched counts are zero. -/
theorem ensurePlatforms_diff_witness :
    ensurePlatformsAreSynchronized ["ios", "android", "web"] ["ios", "android"]
        ["android", "web"] = [PlatformOp.add "ios", PlatformOp.remove "web"] ∧
      (ensurePlatformsAreSynchronized ["ios", "android", "web"] ["ios", "android"]
          ["android", "web"]).count (PlatformOp.add "ios") = 1 ∧
      (ensurePlatformsAreSynchronized ["ios", "android", "web"] ["ios", "android"]
          ["android", "web"]).count (PlatformOp.remove "web") = 1 :=
  ⟨by decide,
    by
      have h := ensurePlatforms_diff ["ios", "android", "web"] ["ios", "android"]
        ["android", "web"] (by decide) (by decide)
      exact ⟨by rw [(h.2 "ios").1]; decide, by rw [(h.2 "web").2]; decide⟩⟩

end Meteor.Cordova

namespace Meteor.Cordova

/-! ## Theorems: plugin reconciler -/

theorem reinstallFlag_cons (installed : List (String × String)) (p : String × String)
    (rest : List (String × String)) :
    reinstallFlag installed (p :: rest) =
      if isUrlWithFileScheme p.2 then reinstallFlag installed rest
      else
        match normalizeVersion p.2 with
        | .error e => .error e
        | .ok w =>
          match reinstallFlag installed rest with
          | .error e => .error e
          | .ok b => .ok (b || decide (lookup installed p.1 ≠ some w)) := by
  rfl

theorem reinstallFlag_isOk (installed : List (String × String))
    (l : List (String × String))
    (h : ∀ p ∈ l, isUrlWithFileScheme p.2 = false → (normalizeVersion p.2).isOk = true) :
    ∃ b, reinstallFlag installed l = .ok b := by
  induction l with
  | nil => exact ⟨false, rfl⟩
  | cons p rest ih =>
    rcases ih (fun q hq hql => h q (List.mem_cons_of_mem p hq) hql) with ⟨b, hb⟩
    by_cases hl : isUrlWithFileScheme p.2 = true
    · exact ⟨b, by rw [reinstallFlag_cons, if_pos hl, hb]⟩
    · have hl2 : isUrlWithFileScheme p.2 = false := by
        cases hx : isUrlWithFileScheme p.2
        · rfl
        · exact absurd hx hl
      have hok := h p (List.mem_cons_self p rest) hl2
      rcases hw : normalizeVersion p.2 with e | w
      · rw [hw] at hok
        cases hok
      · refine ⟨b || decide (lookup installed p.1 ≠ some w), ?_⟩
        rw [reinstallFlag_cons, if_neg (by simp [hl2])]
        simp only [hw, hb]

theorem reinstallFlag_true (installed : List (String × String))
    (l : List (String × String))
    (hok : ∀ p ∈ l, isUrlWithFileScheme p.2 = false → (normalizeVersion p.2).isOk = true)
    (htrig : ∃ p ∈ l, isUrlWithFileScheme p.2 = false ∧
      lookup installed p.1 ≠ (normalizeVersion p.2).toOption) :
    reinstallFlag installed l = .ok true := by
  induction l with
  | nil =>
    rcases htrig with ⟨p, hp, _⟩
    exact absurd hp (List.not_mem_nil p)
  | cons q rest ih =>
    have hokr : ∀ p ∈ rest, isUrlWithFileScheme p.2 = false →
        (normalizeVersion p.2).isOk = true :=
      fun p hp hpl => hok p (List.mem_cons_of_mem q hp) hpl
    rcases htrig with ⟨p, hp, hpl, hpm⟩
    rcases List.mem_cons.1 hp with rfl | hprest
    · have hok1 := hok p (List.mem_cons_self p rest) hpl
      rcases hw : normalizeVersion p.2 with e | w
      · rw [hw] at hok1
        cases hok1
      · rcases reinstallFlag_isOk installed rest hokr with ⟨b, hb⟩
        rw [reinstallFlag_cons, if_neg (by simp [hpl])]
        simp only [hw, hb]
        have hne : lookup installed p.1 ≠ some w := by
          rw [hw] at hpm
          exact hpm
        simp [hne]
    · have hrec := ih hokr ⟨p, hprest, hpl, hpm⟩
      by_cases hl : isUrlWithFileScheme q.2 = true
      · rw [reinstallFlag_cons, if_pos hl, hrec]
      · have hl2 : isUrlWithFileScheme q.2 = false := by
          cases hx : isUrlWithFileScheme q.2
          · rfl
          · exact absurd hx hl
        have hok1 := hok q (List.mem_cons_self q rest) hl2
        rcases hw : normalizeVersion q.2 with e | w
        · rw [hw] at hok1
          cases hok1
        · rw [reinstallFlag_cons, if_neg (by simp [hl2])]
          simp only [hw, hrec]
          simp

theorem reinstallFlag_false (installed : List (String × String))
    (l : List (String × String))
    (h : ∀ p ∈ l, isUrlWithFileScheme p.2 = false →
      (normalizeVersion p.2).isOk = true ∧
        lookup installed p.1 = (normalizeVersion p.2).toOption) :
    reinstallFlag installed l = .ok false := by
  induction l with
  | nil => rfl
  | cons q rest ih =>
    have ihr := ih (fun p hp hpl => h p (List.mem_cons_of_mem q hp) hpl)
    by_cases hl : isUrlWithFileScheme q.2 = true
    · rw [reinstallFlag_cons, if_pos hl, ihr]
    · have hl2 : isUrlWithFileScheme q.2 = false := by
        cases hx : isUrlWithFileScheme q.2
        · rfl
        · exact absurd hx hl
      obtain ⟨hok1, hmat⟩ := h q (List.mem_cons_self q rest) hl2
      rcases hw : normalizeVersion q.2 with e | w
      · rw [hw] at hok1
        cases hok1
      · rw [reinstallFlag_cons, if_neg (by simp [hl2])]
        simp only [hw, ihr]
        have heq : lookup installed q.1 = some w := by
          rw [hw] at hmat
          exact hmat
        simp [heq]

/-- C2: whenever some non-local desired plugin is missing from the
installed map or present with a different normalized version (and every
non-local version normalizes without error), the decision is reinstall-all:
the remove set is the full installed name set and the install set is the
full desired map, local-path entries included. -/
theorem syncDecision_allOrNothing (plugins installed : List (String × String))
    (hok : ∀ p ∈ plugins, isUrlWithFileScheme p.2 = false →
      (normalizeVersion p.2).isOk = true)
    (htrig : ∃ p ∈ plugins, isUrlWithFileScheme p.2 = false ∧
      lookup installed p.1 ≠ (normalizeVersion p.2).toOption) :
    syncDecision plugins installed =
      .ok { reinstallAll := true,
            toRemove := installed.map (fun p => p.1),
            toInstall := plugins } := by
  have hflag := reinstallFlag_true installed plugins hok htrig
  simp [syncDecision, hflag]

/-- Witness for C2: a version bump on an installed plugin triggers
reinstall-all. -/
theorem syncDecision_allOrNothing_witness :
    syncDecision [("cordova-plugin-camera", "1.2.0")]
        [("cordova-plugin-camera", "1.1.0")] =
      .ok { reinstallAll := true,
            toRemove := ["cordova-plugin-camera"],
            toInstall := [("cordova-plugin-camera", "1.2.0")] } :=
  syncDecision_allOrNothing [("cordova-plugin-camera", "1.2.0")]
    [("cordova-plugin-camera", "1.1.0")] (by decide) (by decide)

/-- C3: when desired and installed agree exactly on every non-local-path
plugin and every installed name is desired, the reinstall flag stays false,
only local-path names that are currently installed are removed, and only
the local-path entries are installed. -/
theorem syncDecision_localIsolation (plugins installed : List (String × String))
    (hmatch : ∀ p ∈ plugins, isUrlWithFileScheme p.2 = false →
      (normalizeVersion p.2).isOk = true ∧
        lookup installed p.1 = (normalizeVersion p.2).toOption)
    (hcover : ∀ q ∈ installed, (lookup plugins q.1).isSome = true) :
    syncDecision plugins installed =
      .ok { reinstallAll := false,
            toRemove := ((pluginsFromLocalPath plugins).map (fun p => p.1)).filter
              (fun n => (lookup installed n).isSome),
            toInstall := pluginsFromLocalPath plugins } := by
  have hflag := reinstallFlag_false installed plugins hmatch
  have hstale : staleFlag plugins installed = false := by
    rw [staleFlag, List.any_eq_false]
    intro q hq
    have hs := hcover q hq
    rcases hx : lookup plugins q.1 with _ | v
    · rw [hx] at hs
      cases hs
    · simp [hx]
  simp [syncDecision, hflag, hstale]

/-- Witness for C3: desired has one matching registry plugin and one
local-path plugin that is installed under an old path; only the local name
is removed and only the local entry reinstalled. -/
theorem syncDecision_localIsolation_witness :
    syncDecision
        [("cordova-plugin-camera", "1.2.0"), ("cordova-plugin-local", "file://../plugin")]
        [("cordova-plugin-camera", "1.2.0"), ("cordova-plugin-local", "/old/path")] =
      .ok { reinstallAll := false,
            toRemove := ["cordova-plugin-local"],
            toInstall := [("cordova-plugin-local", "file://../plugin")] } :=
  syncDecision_localIsolation
    [("cordova-plugin-camera", "1.2.0"), ("cordova-plugin-local", "file://../plugin")]
    [("cordova-plugin-camera", "1.2.0"), ("cordova-plugin-local", "/old/path")]
    (by decide) (by decide)

end Meteor.Cordova

namespace Meteor.Cordova

theorem installProgress_spec (total : Nat) (l : List (String × String)) :
    ∀ k, installProgress total l k =
      (List.range l.length).map (fun i => (k + 1 + i, total)) := by
  induction l with
  | nil => intro k; rfl
  | cons p rest ih =>
    intro k
    rw [installProgress, ih (k + 1), List.length_cons, List.range_succ_eq_map,
      List.map_cons, List.map_map]
    refine congrArg₂ List.cons (by simp) (List.map_eq_map_iff.mpr ?_)
    intro i _
    simp only [Function.comp_apply, Nat.succ_eq_add_one]
    apply congrArg₂ Prod.mk
    · omega
    · rfl

theorem addOpCount_trace (rmNames : List String) (l : List (String × String)) :
    addOpCount ((if rmNames.isEmpty then [] else [PluginOp.removeBatch rmNames]) ++
      l.map (fun p => PluginOp.add p.1 p.2)) = l.length := by
  rw [addOpCount, List.countP_append, List.countP_map]
  have h1 : ((if rmNames.isEmpty then [] else [PluginOp.removeBatch rmNames])).countP
      isAddOp = 0 := by
    by_cases h : rmNames.isEmpty <;> simp [h, isAddOp, List.countP_cons]
  have h2 : l.countP (isAddOp ∘ fun p => PluginOp.add p.1 p.2) = l.length :=
    List.countP_eq_length.mpr (fun p _ => rfl)
  rw [h1, h2, Nat.zero_add]

/-- C9: whenever a plugin install batch runs (the trace reports progress at
all), the emitted progress sequence is exactly `(0, N), (1, N), ..., (N, N)`
for `N` the number of adds issued: it starts at `0`, increases by exactly
one per completed add with the end always `N`, and reaches `N` exactly once. -/
theorem sync_progress_exact (plugins installed : List (String × String))
    (tr : SyncTrace)
    (h : ensurePluginsAreSynchronized plugins installed = .ok tr)
    (hne : tr.progress ≠ []) :
    tr.progress =
      (List.range (addOpCount tr.ops + 1)).map (fun i => (i, addOpCount tr.ops)) := by
  rcases hd : syncDecision plugins installed with e | dec
  · rw [ensurePluginsAreSynchronized, hd] at h
    simp only at h
    exact Except.noConfusion h
  · rw [ensurePluginsAreSynchronized, hd] at h
    simp only at h
    by_cases hcond :
        (dec.reinstallAll || !(pluginsFromLocalPath plugins).isEmpty) = true
    · rw [if_pos hcond] at h
      have htr := (Except.ok.inj h).symm
      rw [htr]
      have hcount : addOpCount
          ((if dec.toRemove.isEmpty then [] else [PluginOp.removeBatch dec.toRemove]) ++
            dec.toInstall.map (fun p => PluginOp.add p.1 p.2)) =
          dec.toInstall.length := addOpCount_trace dec.toRemove dec.toInstall
      show (0, dec.toInstall.length) ::
          installProgress dec.toInstall.length dec.toInstall 0 = _
      rw [hcount, installProgress_spec dec.toInstall.length dec.toInstall 0,
        List.range_succ_eq_map, List.map_cons, List.map_map]
      refine congrArg₂ List.cons rfl (List.map_eq_map_iff.mpr ?_)
      intro i _
      simp only [Function.comp_apply, Nat.succ_eq_add_one]
      apply congrArg₂ Prod.mk
      · omega
      · rfl
    · rw [if_neg hcond] at h
      have htr := (Except.ok.inj h).symm
      rw [htr] at hne
      exact absurd rfl hne

/-- Witness for C9: a reinstall-all batch of two plugins reports exactly
`(0,2), (1,2), (2,2)`. -/
theorem sync_progress_exact_witness :
    ({ ops := [PluginOp.removeBatch ["a"], PluginOp.add "a" "1.0", PluginOp.add "b" "2.0"],
       progress := [(0, 2), (1, 2), (2, 2)] } : SyncTrace).progress =
      (List.range
        (addOpCount [PluginOp.removeBatch ["a"], PluginOp.add "a" "1.0",
          PluginOp.add "b" "2.0"] + 1)).map
        (fun i => (i, addOpCount [PluginOp.removeBatch ["a"], PluginOp.add "a" "1.0",
          PluginOp.add "b" "2.0"])) :=
  sync_progress_exact [("a", "1.0"), ("b", "2.0")] [("a", "0.9")] _ rfl (by decide)

end Meteor.Cordova

namespace Meteor.Cordova

/-! ## Theorems: plugin reconciliation idempotence -/

theorem lookup_eq_of_mem (l : List (String × String)) (n w : String)
    (hnd : (l.map (fun p => p.1)).Nodup) (hmem : (n, w) ∈ l) :
    lookup l n = some w := by
  induction l with
  | nil => cases hmem
  | cons q rest ih =>
    rcases List.mem_cons.1 hmem with rfl | hmem2
    · rw [lookup, List.find?_cons_of_pos _ (by simp)]
      rfl
    · have hnmem : n ∈ List.map (fun p => p.1) rest :=
        List.mem_map.mpr ⟨(n, w), hmem2, rfl⟩
      have hq : q.1 ≠ n := by
        intro hqe
        rw [List.map_cons, List.nodup_cons] at hnd
        rw [← hqe] at hnmem
        exact hnd.1 hnmem
      rw [lookup, List.find?_cons_of_neg _ (by simp [hq])]
      exact ih (List.nodup_cons.1 hnd).2 hmem2

theorem lookup_isSome_of_mem_keys (l : List (String × String)) (n : String)
    (h : n ∈ l.map (fun p => p.1)) : (lookup l n).isSome = true := by
  rcases List.mem_map.1 h with ⟨p, hp, hpn⟩
  rw [lookup, Option.isSome_map', List.find?_isSome]
  exact ⟨p, hp, by simp [hpn]⟩

theorem filter_not_contains_self (l : List (String × String)) :
    l.filter (fun p => !((l.map (fun q => q.1)).contains p.1)) = [] := by
  rw [List.filter_eq_nil_iff]
  intro p hp
  simp only [Bool.not_eq_true', Bool.not_eq_false]
  exact List.elem_iff.mpr (List.mem_map_of_mem (fun q => q.1) hp)

theorem filter_not_contains_nil (l : List (String × String)) :
    l.filter (fun p => !(([] : List String).contains p.1)) = l :=
  List.filter_eq_self.mpr (fun _ _ => rfl)

theorem pluginsFromLocalPath_eq_nil (plugins : List (String × String))
    (hnl : ∀ p ∈ plugins, isUrlWithFileScheme p.2 = false) :
    pluginsFromLocalPath plugins = [] := by
  rw [pluginsFromLocalPath, List.filter_eq_nil_iff]
  intro p hp
  simp [hnl p hp]

theorem recordAdds_spec (resolveLocal : String → String) :
    ∀ l adds : List (String × String),
      recordAdds resolveLocal l = .ok adds →
      adds.map (fun p => p.1) = l.map (fun p => p.1) ∧
      ∀ p ∈ l, isUrlWithFileScheme p.2 = false →
        ∃ w, normalizeVersion p.2 = .ok w ∧ (p.1, w) ∈ adds := by
  intro l
  induction l with
  | nil =>
    intro adds h
    have hadds : ([] : List (String × String)) = adds := Except.ok.inj h
    subst hadds
    exact ⟨rfl, fun p hp => absurd hp (List.not_mem_nil p)⟩
  | cons p rest ih =>
    intro adds h
    rw [recordAdds] at h
    rcases hw : recordedVersion resolveLocal p.2 with e | w
    · rw [hw] at h
      exact Except.noConfusion h
    · rcases hr : recordAdds resolveLocal rest with e | adds2
      · rw [hw, hr] at h
        exact Except.noConfusion h
      · rw [hw, hr] at h
        have hadds : (p.1, w) :: adds2 = adds := Except.ok.inj h
        subst hadds
        obtain ⟨ihmap, ihmem⟩ := ih adds2 hr
        refine ⟨by simp [ihmap], fun q hq hql => ?_⟩
        rcases List.mem_cons.1 hq with rfl | hq2
        · have hrec : recordedVersion resolveLocal q.2 = normalizeVersion q.2 := by
            rw [recordedVersion, if_neg (by simp [hql])]
          exact ⟨w, by rw [← hrec, hw], List.mem_cons_self _ _⟩
        · rcases ihmem q hq2 hql with ⟨w2, hw2, hmem2⟩
          exact ⟨w2, hw2, List.mem_cons_of_mem _ hmem2⟩

/-- C1 (amended): for a desired plugin map containing no local-path
(`file://`) plugins, running plugin reconciliation a second time right
after a first run — with the installed map changed only by the first run's
own remove/add operations — issues zero operations and zero progress
reports. (As originally stated the claim fails for desired maps with
local-path plugins, which are removed and re-added on every run; see the
counterexample.) -/
theorem pluginSync_idempotent (resolveLocal : String → String)
    (plugins installed I2 : List (String × String))
    (hnl : ∀ p ∈ plugins, isUrlWithFileScheme p.2 = false)
    (hnd : (plugins.map (fun p => p.1)).Nodup)
    (hI : installedAfter resolveLocal plugins installed = .ok I2) :
    ensurePluginsAreSynchronized plugins I2 = .ok { ops := [], progress := [] } := by
  have hlocal := pluginsFromLocalPath_eq_nil plugins hnl
  unfold installedAfter at hI
  unfold syncDecision at hI
  rcases hf : reinstallFlag installed plugins with e | flag
  · rw [hf] at hI
    exact Except.noConfusion hI
  · rw [hf] at hI
    simp only at hI
    cases hbs : (flag || staleFlag plugins installed) with
    | false =>
      rw [hbs] at hI
      simp only [Bool.false_eq_true, if_false, hlocal] at hI
      rw [List.map_nil, List.filter_nil, recordAdds] at hI
      simp only [filter_not_contains_nil, List.append_nil] at hI
      have hIeq : installed = I2 := Except.ok.inj hI
      subst hIeq
      rw [ensurePluginsAreSynchronized, syncDecision, hf]
      simp only
      rw [hbs]
      simp [hlocal]
    | true =>
      rw [hbs] at hI
      simp only [eq_self_iff_true, if_true] at hI
      rcases hr : recordAdds resolveLocal plugins with e | adds
      · rw [hr] at hI
        exact Except.noConfusion hI
      · rw [hr] at hI
        simp only at hI
        rw [filter_not_contains_self, List.nil_append] at hI
        have hIeq : adds = I2 := Except.ok.inj hI
        subst hIeq
        obtain ⟨hmap, hmem⟩ := recordAdds_spec resolveLocal plugins adds hr
        have hndadds : (adds.map (fun p => p.1)).Nodup := by
          rw [hmap]
          exact hnd
        have hflag2 : reinstallFlag adds plugins = .ok false := by
          apply reinstallFlag_false
          intro p hp hpl
          rcases hmem p hp hpl with ⟨w, hw, hmw⟩
          refine ⟨by rw [hw]; rfl, ?_⟩
          rw [hw]
          exact lookup_eq_of_mem adds p.1 w hndadds hmw
        have hstale2 : staleFlag plugins adds = false := by
          rw [staleFlag, List.any_eq_false]
          intro q hq
          have hqk : q.1 ∈ plugins.map (fun p => p.1) := by
            rw [← hmap]
            exact List.mem_map_of_mem (fun p => p.1) hq
          have hsome := lookup_isSome_of_mem_keys plugins q.1 hqk
          rcases hx : lookup plugins q.1 with _ | v
          · rw [hx] at hsome
            cases hsome
          · simp [hx]
        rw [ensurePluginsAreSynchronized, syncDecision, hflag2]
        simp [hstale2, hlocal]

/-- Witness for C1 (amended) on a one-plugin registry-version map installed
from scratch by the first run. -/
theorem pluginSync_idempotent_witness :
    installedAfter id [("cordova-plugin-camera", "1.2.0")] [] =
        .ok [("cordova-plugin-camera", "1.2.0")] ∧
      ensurePluginsAreSynchronized [("cordova-plugin-camera", "1.2.0")]
          [("cordova-plugin-camera", "1.2.0")] = .ok { ops := [], progress := [] } :=
  ⟨rfl,
    pluginSync_idempotent id [("cordova-plugin-camera", "1.2.0")] []
      [("cordova-plugin-camera", "1.2.0")] (by decide) (by decide) rfl⟩

/-- Counterexample to C1 as stated: for the desired map
`{p ↦ file:///x}` the first run installs the local plugin, yet the second
run — with the installed state exactly as the first run left it — issues
one remove and one add instead of zero operations, because local-path
plugins are unconditionally reinstalled whenever present. -/
theorem pluginSync_local_counterexample :
    installedAfter id [("p", "file:///x")] [] = .ok [("p", "file:///x")] ∧
      ensurePluginsAreSynchronized [("p", "file:///x")] [("p", "file:///x")] =
        .ok { ops := [PluginOp.removeBatch ["p"], PluginOp.add "p" "file:///x"],
              progress := [(0, 1), (1, 1)] } ∧
      ensurePluginsAreSynchronized [("p", "file:///x")] [("p", "file:///x")] ≠
        .ok { ops := [], progress := [] } := by
  refine ⟨rfl, rfl, fun h => ?_⟩
  have hboth :
      (Except.ok
        { ops := [PluginOp.removeBatch ["p"], PluginOp.add "p" "file:///x"],
          progress := [(0, 1), (1, 1)] } : Except String SyncTrace) =
        Except.ok { ops := [], progress := [] } := h
  exact List.noConfusion (congrArg SyncTrace.ops (Except.ok.inj hboth))

end Meteor.Cordova
